import Mathlib

/-!
Shallow embedding of `fono/build_db.py` (helwin-server): the syllable
tokenizer (`split_char`, `parse_token`), the syllable counter
(`count_syllables`) and the distinctive-feature aggregation
(`FDPoint`/`FDType`/`FD`, `load_fitures_spec`).

Strings are modelled as `List Char`.  Python dicts with a fixed closed key
set are modelled as ordered association lists (insertion order preserved).
A raised exception is modelled as `Option.none` for the raising call.
The `while` loop of `split_char` can fail to make progress (no pattern
matches the head of the remaining word), in which case the Python loop
never terminates; the embedding returns `none` in exactly that situation
(fuel equal to the length of the input suffices for every terminating run,
since each productive pass consumes at least one character).
-/

namespace Fono

/-- Tag attached by `split_char` to each emitted unit. -/
inductive Tag where
  | konsonan : Tag
  | vocal : Tag
deriving DecidableEq

/-- The module-level list `cons` of build_db.py (lines 15-41). -/
def cons : List (List Char) :=
  [['k', 'h'], ['n', 'g'], ['n', 'y'], ['s', 'y'],
   ['b'], ['c'], ['d'], ['f'], ['g'], ['h'], ['j'], ['k'], ['l'], ['m'],
   ['n'], ['p'], ['q'], ['r'], ['s'], ['t'], ['v'], ['w'], ['x'], ['y'], ['z']]

/-- The module-level list `vocabs` of build_db.py (lines 42-52). -/
def vocabs : List (List Char) :=
  [['a', 'i'], ['a', 'u'], ['e', 'i'], ['o', 'i'],
   ['a'], ['i'], ['u'], ['e'], ['o']]

/-- `is_vocal` (line 55): membership in `vocabs`. -/
def is_vocal (c : List Char) : Bool :=
  vocabs.contains c

/-- Anchored match of an ordered alternation of literal patterns, as Python
`re` does for `^(p1|p2|...)`: the first alternative that is a prefix of `w`
wins. -/
def tryPattern (pats : List (List Char)) (w : List Char) : Option (List Char) :=
  pats.find? (fun p => List.isPrefixOf p w)

/-- The alternatives of the regex `^(kh|ng|ny|sy|[bcdfghjklmnpqrstvwxyz])`
built in `split_char` (line 213), in the order the regex tries them. -/
def gab_kons : List (List Char) :=
  [['k', 'h'], ['n', 'g'], ['n', 'y'], ['s', 'y'],
   ['b'], ['c'], ['d'], ['f'], ['g'], ['h'], ['j'], ['k'], ['l'], ['m'],
   ['n'], ['p'], ['q'], ['r'], ['s'], ['t'], ['v'], ['w'], ['x'], ['y'], ['z']]

/-- The alternatives of the regex `^[aiueo]` (line 214). -/
def v_pattern : List (List Char) :=
  [['a'], ['i'], ['u'], ['e'], ['o']]

/-- One `(pattern, tag)` attempt of the inner `for` loop of `split_char`
(lines 223-229): on a match, consume it and append the tagged unit. -/
def stepPat (pats : List (List Char)) (tag : Tag)
    (st : List Char × List (List Char × Tag)) :
    List Char × List (List Char × Tag) :=
  match tryPattern pats st.1 with
  | some m => (st.1.drop m.length, st.2 ++ [(m, tag)])
  | none => st

/-- One pass of the inner `for (pattern, tag) in patterns` loop: the
consonant pattern is tried first, then the vowel pattern is tried on the
(possibly already shortened) word. -/
def splitIter (st : List Char × List (List Char × Tag)) :
    List Char × List (List Char × Tag) :=
  stepPat v_pattern Tag.vocal (stepPat gab_kons Tag.konsonan st)

/-- The `while word != ''` loop of `split_char` (lines 222-229).  A pass
that consumes nothing would repeat forever in Python; the embedding answers
`none` there.  `fuel = |initial word|` is enough for every terminating run. -/
def splitLoop : Nat → List Char → List (List Char × Tag) →
    Option (List (List Char × Tag))
  | _, [], acc => some acc
  | 0, _ :: _, _ => none
  | Nat.succ fuel, w, acc =>
    let st := splitIter (w, acc)
    if st.1.length < w.length then splitLoop fuel st.1 st.2 else none

/-- `split_char` (lines 212-230).  `none` means the Python loop never
terminates (no pattern matches at some position). -/
def split_char (s : List Char) : Option (List (List Char × Tag)) :=
  splitLoop s.length s []

/-- The alternatives of `re_vocab = re.compile('(ai|au|ei|oi|[aiueo])')`
(line 141), in the order the regex tries them at each position. -/
def re_vocab : List (List Char) :=
  [['a', 'i'], ['a', 'u'], ['e', 'i'], ['o', 'i'],
   ['a'], ['i'], ['u'], ['e'], ['o']]

/-- Unanchored `re.search` over an ordered alternation of literal patterns:
the leftmost position at which some alternative matches wins, and at that
position the first matching alternative wins.  Returns
`(text before, match, text after)`. -/
def reSearch (pats : List (List Char)) :
    List Char → Option (List Char × List Char × List Char)
  | [] =>
    match tryPattern pats [] with
    | some m => some ([], m, [])
    | none => none
  | c :: rest =>
    match tryPattern pats (c :: rest) with
    | some m => some ([], m, (c :: rest).drop m.length)
    | none =>
      match reSearch pats rest with
      | some (b, m, a) => some (c :: b, m, a)
      | none => none

/-- One decomposed syllable token, as the dict built at lines 203-208. -/
structure SyllableToken where
  token : List Char
  nucleus : List Char
  onset : List Char
  coda : List Char
deriving DecidableEq

/-- The per-token body of the loop in `parse_token` (lines 191-208): search
`re_vocab` in the token; no match drops the token, a match at span
`(nucleus_start, nucleus_end)` yields onset/nucleus/coda by slicing. -/
def decompose (token : List Char) : Option SyllableToken :=
  match reSearch re_vocab token with
  | none => none
  | some (onset, nucleus, coda) => some ⟨token, nucleus, onset, coda⟩

/-- The `{word, tokens}` dict returned by `parse_token`. -/
structure ParseResult where
  word : List Char
  tokens : List SyllableToken
deriving DecidableEq

/-- `parse_token` (lines 185-209), with the external `parser.parse` passed
explicitly as a function. -/
def parse_token (parse : List Char → List (List Char)) (word : List Char) :
    ParseResult :=
  ⟨word, (parse word).filterMap decompose⟩

/-- Ordered association-list lookup; `none` models a Python `KeyError` on
subscript (or `k not in m` being true). -/
def lookupA {A : Type} : List (List Char × A) → List Char → Option A
  | [], _ => none
  | (k, v) :: rest, key => if k = key then some v else lookupA rest key

/-- In-place update of one key of an association list; `none` models the
`KeyError` raised when the key is absent. -/
def updateA {A : Type} : List (List Char × A) → List Char → (A → A) →
    Option (List (List Char × A))
  | [], _, _ => none
  | (k, v) :: rest, key, f =>
    if k = key then some ((k, f v) :: rest)
    else
      match updateA rest key f with
      | some rest2 => some ((k, v) :: rest2)
      | none => none

/-- One consonant's counters, the dict `{'onset': .., 'coda': ..}`. -/
structure KonsCount where
  onset : Nat
  coda : Nat
deriving DecidableEq

/-- The `SyllCounter` namedtuple (lines 245-248). -/
structure SyllCounter where
  vocab : List (List Char × Nat)
  kons : List (List Char × KonsCount)
deriving DecidableEq

/-- `kons_counters` initialization (lines 250-252). -/
def init_kons : List (List Char × KonsCount) :=
  cons.map (fun c => (c, ⟨0, 0⟩))

/-- `vocab_counters` initialization (lines 253-255). -/
def init_vocab : List (List Char × Nat) :=
  vocabs.map (fun c => (c, 0))

/-- A `for char in chars:` loop of increments on an association list, with
Python exception semantics: a `KeyError` stops the loop, KEEPING the
increments already applied, and reports the exception in the flag. -/
def hitAll {A : Type} : List (List Char × A) → List (List Char) → (A → A) →
    List (List Char × A) × Bool
  | m, [], _ => (m, false)
  | m, ch :: rest, f =>
    match updateA m ch f with
    | none => (m, true)
    | some m2 => hitAll m2 rest f

/-- The `try:` body for one token inside `count_syllables` (lines 261-268):
split the onset and bump `.onset` per unit, split the coda and bump `.coda`,
bump the nucleus counter.  An exception (`KeyError` on an untracked letter
or nucleus) is caught by the `except: continue`, so the token's processing
ends there but the increments applied before the exception persist.
`none` models `split_char` failing to terminate, which nothing catches. -/
def count_token (st : SyllCounter) (t : SyllableToken) : Option SyllCounter :=
  match split_char t.onset with
  | none => none
  | some onsetUnits =>
    let r1 := hitAll st.kons (onsetUnits.map Prod.fst)
      (fun kc => ⟨kc.onset + 1, kc.coda⟩)
    if r1.2 then some ⟨st.vocab, r1.1⟩
    else
      match split_char t.coda with
      | none => none
      | some codaUnits =>
        let r2 := hitAll r1.1 (codaUnits.map Prod.fst)
          (fun kc => ⟨kc.onset, kc.coda + 1⟩)
        if r2.2 then some ⟨st.vocab, r2.1⟩
        else
          match updateA st.vocab t.nucleus (fun n => n + 1) with
          | none => some ⟨st.vocab, r2.1⟩
          | some v2 => some ⟨v2, r2.1⟩

/-- `count_syllables` (lines 244-270): fold every token of every word into
the counters, tokens processed left to right. -/
def count_syllables (tokens : List ParseResult) : Option SyllCounter :=
  tokens.foldlM (fun st data => data.tokens.foldlM count_token st)
    (SyllCounter.mk init_vocab init_kons)

/-- A value of the heterogeneous Python counter map handed to
`count_in_map`: an `int` for vowels, a dict with optional `onset`/`coda`
keys for consonants. -/
inductive CVal where
  | vint : Nat → CVal
  | vdict : Option Nat → Option Nat → CVal
deriving DecidableEq

/-- The dataclass `FDPoint` (lines 59-64). -/
structure FDPoint where
  letter : List Char
  nucleus : Nat
  coda : Nat
  onset : Nat
deriving DecidableEq

/-- `FDPoint.count_in_map` (lines 75-91): absent letter returns silently;
a vowel letter requires an `int` value and SETS `nucleus`; a consonant
letter requires a dict with both `coda` and `onset` keys and SETS both.
`none` models the `raise Exception` paths. -/
def FDPoint.count_in_map (p : FDPoint) (m : List (List Char × CVal)) :
    Option FDPoint :=
  match lookupA m p.letter with
  | none => some p
  | some val =>
    if is_vocal p.letter then
      match val with
      | CVal.vint n => some ⟨p.letter, n, p.coda, p.onset⟩
      | CVal.vdict _ _ => none
    else
      match val with
      | CVal.vint _ => none
      | CVal.vdict o c =>
        match c with
        | none => none
        | some cv =>
          match o with
          | none => none
          | some ov => some ⟨p.letter, p.nucleus, cv, ov⟩

/-- One point of the serialized document (`FDPoint.asdict`, lines 93-100). -/
inductive PointDoc where
  | vocalDoc : List Char → Nat → PointDoc
  | konsDoc : List Char → Nat → Nat → Nat → PointDoc
deriving DecidableEq

/-- `FDPoint.asdict` (lines 93-100): vowels carry `total = nucleus`,
consonants carry `coda`, `onset` and `total = coda + onset`. -/
def FDPoint.asdict (p : FDPoint) : PointDoc :=
  if is_vocal p.letter then PointDoc.vocalDoc p.letter p.nucleus
  else PointDoc.konsDoc p.letter p.coda p.onset (p.coda + p.onset)

/-- The dataclass `FDType` (lines 102-105): `points` is a dict keyed by
letter, insertion-ordered. -/
structure FDType where
  ftype : List Char
  points : List (List Char × FDPoint)
deriving DecidableEq

/-- `FDType.add_letter` (lines 107-109). -/
def FDType.add_letter (t : FDType) (ch : List Char) : FDType :=
  match lookupA t.points ch with
  | some _ => t
  | none => ⟨t.ftype, t.points ++ [(ch, ⟨ch, 0, 0, 0⟩)]⟩

/-- The `for fd_point in self.points.values()` loop of `FDType.count_in_map`
(lines 111-113), over the ordered entries: an exception propagates (the
state after a raise is never observed by any caller in the program, so it
is folded into `none`). -/
def mapPointsM (m : List (List Char × CVal)) :
    List (List Char × FDPoint) → Option (List (List Char × FDPoint))
  | [] => some []
  | (k, p) :: rest =>
    match FDPoint.count_in_map p m with
    | none => none
    | some p2 =>
      match mapPointsM m rest with
      | none => none
      | some rest2 => some ((k, p2) :: rest2)

/-- `FDType.count_in_map` (lines 111-113). -/
def FDType.count_in_map (t : FDType) (m : List (List Char × CVal)) :
    Option FDType :=
  match mapPointsM m t.points with
  | none => none
  | some ps => some ⟨t.ftype, ps⟩

/-- `FDType.asdict` (lines 115-119). -/
structure TypeDoc where
  ftype : List Char
  points : List PointDoc
deriving DecidableEq

/-- `FDType.asdict` (lines 115-119): the letter keys are dropped, values
serialized in order. -/
def FDType.asdict (t : FDType) : TypeDoc :=
  ⟨t.ftype, t.points.map (fun kp => FDPoint.asdict kp.2)⟩

/-- The dataclass `FD` (lines 121-125). -/
structure FD where
  name : List Char
  plus : FDType
  minus : FDType
deriving DecidableEq

/-- `FD.count_in_map` (lines 127-129): plus first, then minus. -/
def FD.count_in_map (f : FD) (m : List (List Char × CVal)) : Option FD :=
  match f.plus.count_in_map m with
  | none => none
  | some p =>
    match f.minus.count_in_map m with
    | none => none
    | some mn => some ⟨f.name, p, mn⟩

/-- `FD.asdict` (lines 131-136). -/
structure FDDoc where
  name : List Char
  plus : TypeDoc
  minus : TypeDoc
deriving DecidableEq

/-- `FD.asdict` (lines 131-136). -/
def FD.asdict (f : FD) : FDDoc :=
  ⟨f.name, f.plus.asdict, f.minus.asdict⟩

/-- The `for fitur_flag, fd in zip(fitur_flags, fit_descs)` loop of one line
of `load_fitures_spec` (lines 287-291): pairing stops at the shorter list,
`+` adds the letter to the plus group, `-` to the minus group, anything
else skips the column. -/
def applyLine : List FD → List Char → List (List Char) → List FD
  | fds, _, [] => fds
  | [], _, _ => []
  | fd :: fds, ch, flag :: flags =>
    (if flag = ['+'] then FD.mk fd.name (fd.plus.add_letter ch) fd.minus
     else if flag = ['-'] then FD.mk fd.name fd.plus (fd.minus.add_letter ch)
     else fd) :: applyLine fds ch flags

/-- `load_fitures_spec` (lines 273-292), with the file contents passed as
already-split lines: each line is the leading letter (`char`) and the list
of flag tokens (`char, *fitur_flags = line.split(' ')`). -/
def load_fitures_spec (fiturs : List (List Char))
    (lines : List (List Char × List (List Char))) : List FD :=
  lines.foldl (fun fds line => applyLine fds line.1 line.2)
    (fiturs.map (fun name =>
      FD.mk name (FDType.mk "plus".toList []) (FDType.mk "minus".toList [])))

/-- `counter.kons` viewed as the heterogeneous map handed to
`count_in_map` in `__main__` (line 336): each consonant maps to a dict
with both keys. -/
def konsAsCVal (m : List (List Char × KonsCount)) : List (List Char × CVal) :=
  m.map (fun kv => (kv.1, CVal.vdict (some kv.2.onset) (some kv.2.coda)))

/-- `counter.vocab` viewed as the heterogeneous map handed to
`count_in_map` in `__main__` (line 343): each vowel maps to an int. -/
def vocabAsCVal (m : List (List Char × Nat)) : List (List Char × CVal) :=
  m.map (fun kv => (kv.1, CVal.vint kv.2))

/-- The `for fd in fiturs: fd.count_in_map(map)` loops of `__main__`
(lines 335-336 and 342-343): apply the counts to every feature in order,
an exception propagating. -/
def count_all (m : List (List Char × CVal)) : List FD → Option (List FD)
  | [] => some []
  | fd :: rest =>
    match FD.count_in_map fd m with
    | none => none
    | some fd2 =>
      match count_all m rest with
      | none => none
      | some rest2 => some (fd2 :: rest2)

/-- The single vowel letters, heads of the character class `[aiueo]`. -/
def vowelChars : List Char := ['a', 'i', 'u', 'e', 'o']

/-- The single consonant letters, the class `[bcdfghjklmnpqrstvwxyz]`. -/
def konsChars : List Char :=
  ['b', 'c', 'd', 'f', 'g', 'h', 'j', 'k', 'l', 'm', 'n',
   'p', 'q', 'r', 's', 't', 'v', 'w', 'x', 'y', 'z']

/-- A character of the alphabet both tables cover. -/
def latinChar (c : Char) : Bool :=
  decide (c ∈ vowelChars ∨ c ∈ konsChars)

/-- Class agreement of one emitted `split_char` unit with the tables. -/
def unitOk (u : List Char × Tag) : Prop :=
  (u.2 = Tag.konsonan → u.1 ∈ cons) ∧ (u.2 = Tag.vocal → u.1 ∈ vocabs)

/-- A string composed only of recognized consonant/vowel graphemes: the
concatenation of members of the two pattern tables. -/
inductive ComposedOf : List Char → Prop where
  | empty : ComposedOf []
  | step : ∀ g rest, g ∈ cons ++ vocabs → ComposedOf rest →
      ComposedOf (g ++ rest)

/-- Frame relation between one point entry before and after
`count_in_map`: same key, same letter, and a letter absent from the source
map leaves the entry untouched. -/
def pointFrame (m : List (List Char × CVal))
    (kp kp' : List Char × FDPoint) : Prop :=
  kp'.1 = kp.1 ∧ kp'.2.letter = kp.2.letter ∧
    (lookupA m kp.2.letter = none → kp' = kp)

/-- The counters after processing the single token decomposed from "baa"
(onset "b", nucleus "a", coda "a"): the onset increment for `b` has been
applied, then splitting the coda yields the vowel unit `a`, whose lookup
in `kons_counters` raises `KeyError`; the `except` clause keeps the state
as mutated so far. -/
def C3_state : SyllCounter :=
  ⟨[(['a', 'i'], 0), (['a', 'u'], 0), (['e', 'i'], 0), (['o', 'i'], 0),
    (['a'], 0), (['i'], 0), (['u'], 0), (['e'], 0), (['o'], 0)],
   [(['k', 'h'], ⟨0, 0⟩), (['n', 'g'], ⟨0, 0⟩), (['n', 'y'], ⟨0, 0⟩),
    (['s', 'y'], ⟨0, 0⟩), (['b'], ⟨1, 0⟩), (['c'], ⟨0, 0⟩),
    (['d'], ⟨0, 0⟩), (['f'], ⟨0, 0⟩), (['g'], ⟨0, 0⟩), (['h'], ⟨0, 0⟩),
    (['j'], ⟨0, 0⟩), (['k'], ⟨0, 0⟩), (['l'], ⟨0, 0⟩), (['m'], ⟨0, 0⟩),
    (['n'], ⟨0, 0⟩), (['p'], ⟨0, 0⟩), (['q'], ⟨0, 0⟩), (['r'], ⟨0, 0⟩),
    (['s'], ⟨0, 0⟩), (['t'], ⟨0, 0⟩), (['v'], ⟨0, 0⟩), (['w'], ⟨0, 0⟩),
    (['x'], ⟨0, 0⟩), (['y'], ⟨0, 0⟩), (['z'], ⟨0, 0⟩)]⟩

/-- The counters after the corpus `["baa", "ba"]` under the identity
parser: the failing first token keeps its partial onset increment, the
succeeding second token contributes fully. -/
def C3_state2 : SyllCounter :=
  ⟨[(['a', 'i'], 0), (['a', 'u'], 0), (['e', 'i'], 0), (['o', 'i'], 0),
    (['a'], 1), (['i'], 0), (['u'], 0), (['e'], 0), (['o'], 0)],
   [(['k', 'h'], ⟨0, 0⟩), (['n', 'g'], ⟨0, 0⟩), (['n', 'y'], ⟨0, 0⟩),
    (['s', 'y'], ⟨0, 0⟩), (['b'], ⟨2, 0⟩), (['c'], ⟨0, 0⟩),
    (['d'], ⟨0, 0⟩), (['f'], ⟨0, 0⟩), (['g'], ⟨0, 0⟩), (['h'], ⟨0, 0⟩),
    (['j'], ⟨0, 0⟩), (['k'], ⟨0, 0⟩), (['l'], ⟨0, 0⟩), (['m'], ⟨0, 0⟩),
    (['n'], ⟨0, 0⟩), (['p'], ⟨0, 0⟩), (['q'], ⟨0, 0⟩), (['r'], ⟨0, 0⟩),
    (['s'], ⟨0, 0⟩), (['t'], ⟨0, 0⟩), (['v'], ⟨0, 0⟩), (['w'], ⟨0, 0⟩),
    (['x'], ⟨0, 0⟩), (['y'], ⟨0, 0⟩), (['z'], ⟨0, 0⟩)]⟩

/-- A vowel feature: its only point carries the vowel letter `a`. -/
def C4_fd : FD :=
  ⟨"high".toList,
   ⟨"plus".toList, [(['a'], ⟨['a'], 0, 0, 0⟩)]⟩,
   ⟨"minus".toList, []⟩⟩

end Fono

namespace Fono

/-- A successful anchored match returns one of the alternatives, and it is
a prefix of the word. -/
lemma tryPattern_eq_some {pats : List (List Char)} {w m : List Char}
    (h : tryPattern pats w = some m) :
    m ∈ pats ∧ m ++ w.drop m.length = w := by
  unfold tryPattern at h
  have hmem := List.mem_of_find?_eq_some h
  have hpre := List.find?_some h
  have hp : m <+: w := List.isPrefixOf_iff_prefix.mp hpre
  obtain ⟨t, ht⟩ := hp
  refine ⟨hmem, ?_⟩
  rw [← ht, List.drop_left]

lemma gab_kons_ne_nil : ∀ p ∈ gab_kons, p ≠ [] := by decide

lemma v_pattern_ne_nil : ∀ p ∈ v_pattern, p ≠ [] := by decide

lemma re_vocab_ne_nil : ∀ p ∈ re_vocab, p ≠ [] := by decide

lemma v_pattern_sub_vocabs : ∀ p ∈ v_pattern, p ∈ vocabs := by decide

lemma mem_vowelChars_single : ∀ c ∈ vowelChars, [c] ∈ vocabs := by decide

lemma mem_konsChars_single : ∀ c ∈ konsChars, [c] ∈ gab_kons := by decide

lemma vowel_kons_disjoint :
    ∀ h ∈ konsChars, ∀ c ∈ vowelChars, (h == c) = false := by decide

/-- Every consonant alternative starts with a single-consonant letter. -/
lemma gab_kons_heads :
    ∀ p ∈ gab_kons, ∃ h t, p = h :: t ∧ h ∈ konsChars := by
  intro p hp
  fin_cases hp <;> exact ⟨_, _, rfl, by decide⟩

/-- The consonant pattern never matches a word starting with a vowel. -/
lemma tryPattern_gab_kons_vowelHead {c : Char} (hc : c ∈ vowelChars)
    (r : List Char) : tryPattern gab_kons (c :: r) = none := by
  unfold tryPattern
  rw [List.find?_eq_none]
  intro p hp
  obtain ⟨h, t, rfl, hh⟩ := gab_kons_heads p hp
  have hne : (h == c) = false := vowel_kons_disjoint h hh c hc
  simp [List.isPrefixOf, hne]

/-- The vowel pattern matches exactly the head vowel. -/
lemma tryPattern_v_pattern_vowelHead {c : Char} (hc : c ∈ vowelChars)
    (r : List Char) : tryPattern v_pattern (c :: r) = some [c] := by
  fin_cases hc <;> simp [tryPattern, v_pattern, List.find?, List.isPrefixOf]

/-- The consonant pattern matches any word starting with a consonant. -/
lemma tryPattern_gab_kons_konsHead {c : Char} (hc : c ∈ konsChars)
    (r : List Char) : ∃ m, tryPattern gab_kons (c :: r) = some m := by
  have h1 : [c] ∈ gab_kons := mem_konsChars_single c hc
  have h2 : List.isPrefixOf [c] (c :: r) = true := by
    simp [List.isPrefixOf]
  have h3 : (gab_kons.find? (fun p => List.isPrefixOf p (c :: r))).isSome :=
    List.find?_isSome.mpr ⟨[c], h1, h2⟩
  exact Option.isSome_iff_exists.mp h3

lemma splitLoop_nil (fuel : Nat) (acc : List (List Char × Tag)) :
    splitLoop fuel [] acc = some acc := by
  cases fuel <;> rfl

lemma splitLoop_succ (fuel : Nat) (c : Char) (rest : List Char)
    (acc : List (List Char × Tag)) :
    splitLoop (fuel + 1) (c :: rest) acc =
      (if (splitIter (c :: rest, acc)).1.length < (c :: rest).length
       then splitLoop fuel (splitIter (c :: rest, acc)).1
              (splitIter (c :: rest, acc)).2
       else none) := rfl

/-- Each `stepPat` only appends to the accumulator. -/
lemma stepPat_acc (pats : List (List Char)) (tag : Tag)
    (st : List Char × List (List Char × Tag)) :
    ∃ δ, (stepPat pats tag st).2 = st.2 ++ δ := by
  unfold stepPat
  cases h : tryPattern pats st.1 with
  | none => exact ⟨[], by simp⟩
  | some m => exact ⟨[(m, tag)], by simp⟩

/-- One full pass only appends to the accumulator. -/
lemma splitIter_acc (w : List Char) (acc : List (List Char × Tag)) :
    ∃ δ, (splitIter (w, acc)).2 = acc ++ δ := by
  unfold splitIter
  obtain ⟨δ1, h1⟩ := stepPat_acc gab_kons Tag.konsonan (w, acc)
  obtain ⟨δ2, h2⟩ := stepPat_acc v_pattern Tag.vocal
    (stepPat gab_kons Tag.konsonan (w, acc))
  exact ⟨δ1 ++ δ2, by rw [h2, h1, List.append_assoc]⟩

/-- The loop only appends to the accumulator. -/
lemma splitLoop_extends : ∀ (fuel : Nat) (w : List Char)
    (acc l : List (List Char × Tag)), splitLoop fuel w acc = some l →
    ∃ tail, l = acc ++ tail := by
  intro fuel
  induction fuel with
  | zero =>
    intro w acc l h
    match w with
    | [] =>
      rw [splitLoop_nil] at h
      exact ⟨[], by simp [← Option.some.inj h]⟩
    | _ :: _ => exact absurd h (by simp [splitLoop])
  | succ n ih =>
    intro w acc l h
    match w with
    | [] =>
      rw [splitLoop_nil] at h
      exact ⟨[], by simp [← Option.some.inj h]⟩
    | c :: rest =>
      rw [splitLoop_succ] at h
      by_cases hlt :
          (splitIter (c :: rest, acc)).1.length < (c :: rest).length
      · rw [if_pos hlt] at h
        obtain ⟨tail, htail⟩ := ih _ _ _ h
        obtain ⟨δ, hδ⟩ := splitIter_acc (c :: rest) acc
        exact ⟨δ ++ tail, by rw [htail, hδ, List.append_assoc]⟩
      · rw [if_neg hlt] at h
        cases h

lemma unitOk_kons {m : List Char} (h : m ∈ cons) :
    unitOk (m, Tag.konsonan) :=
  And.intro (fun _ => h) (fun hv => nomatch hv)

lemma unitOk_vocal {m : List Char} (h : m ∈ vocabs) :
    unitOk (m, Tag.vocal) :=
  And.intro (fun hk => nomatch hk) (fun _ => h)

/-- Soundness of the loop on strings over the covered alphabet: it
terminates, its units concatenate back to the input, and every unit's tag
agrees with the tables. -/
lemma splitLoop_sound : ∀ (fuel : Nat) (w : List Char)
    (acc : List (List Char × Tag)), w.length ≤ fuel →
    (∀ c ∈ w, latinChar c = true) →
    ∃ l, splitLoop fuel w acc = some (acc ++ l) ∧
      (l.map Prod.fst).flatten = w ∧ ∀ u ∈ l, unitOk u := by
  intro fuel
  induction fuel with
  | zero =>
    intro w acc hlen _
    have hw : w = [] := List.eq_nil_of_length_eq_zero (Nat.le_zero.mp hlen)
    subst hw
    exact ⟨[], by simp [splitLoop_nil], by simp, by simp⟩
  | succ n ih =>
    intro w acc hlen hlatin
    match w with
    | [] => exact ⟨[], by simp [splitLoop_nil], by simp, by simp⟩
    | c :: rest =>
      have hc : latinChar c = true := hlatin c (List.mem_cons_self c rest)
      have hc2 : c ∈ vowelChars ∨ c ∈ konsChars := by
        unfold latinChar at hc
        exact of_decide_eq_true hc
      rcases hc2 with hcv | hck
      · -- vowel head: the consonant pattern fails, the vowel pattern
        -- consumes exactly one character
        have h1 : tryPattern gab_kons (c :: rest) = none :=
          tryPattern_gab_kons_vowelHead hcv rest
        have h2 : tryPattern v_pattern (c :: rest) = some [c] :=
          tryPattern_v_pattern_vowelHead hcv rest
        have hiter : splitIter (c :: rest, acc) =
            (rest, acc ++ [([c], Tag.vocal)]) := by
          simp [splitIter, stepPat, h1, h2]
        have hrestlen : rest.length ≤ n := by
          simp only [List.length_cons] at hlen
          omega
        obtain ⟨l', hl', hjoin, hok⟩ := ih rest (acc ++ [([c], Tag.vocal)])
          hrestlen (fun x hx => hlatin x (List.mem_cons_of_mem c hx))
        refine ⟨([c], Tag.vocal) :: l', ?_, ?_, ?_⟩
        · rw [splitLoop_succ, hiter]
          simp only [List.length_cons]
          rw [if_pos (Nat.lt_succ_self _)]
          rw [hl']
          simp
        · simp only [List.map_cons, List.flatten_cons]
          rw [hjoin]
          rfl
        · intro u hu
          rcases List.mem_cons.mp hu with rfl | hu2
          · exact unitOk_vocal (mem_vowelChars_single c hcv)
          · exact hok u hu2
      · -- consonant head: the consonant pattern consumes a nonempty
        -- match, then the vowel pattern may consume another one
        obtain ⟨m, hm⟩ := tryPattern_gab_kons_konsHead hck rest
        obtain ⟨hmem, hmw⟩ := tryPattern_eq_some hm
        have hmne : m ≠ [] := gab_kons_ne_nil m hmem
        have hmpos : 0 < m.length := List.length_pos.mpr hmne
        have hstep1 : stepPat gab_kons Tag.konsonan (c :: rest, acc) =
            ((c :: rest).drop m.length, acc ++ [(m, Tag.konsonan)]) := by
          simp [stepPat, hm]
        have hmt : m ++ (c :: rest).drop m.length = c :: rest := hmw
        have hlen1 : m.length + ((c :: rest).drop m.length).length
            = (c :: rest).length := by
          conv_rhs => rw [← hmt]
          simp
        have hlatin_t : ∀ x ∈ (c :: rest).drop m.length,
            latinChar x = true := by
          intro x hx
          refine hlatin x ?_
          rw [← hmt]
          exact List.mem_append_right m hx
        cases h2 : tryPattern v_pattern ((c :: rest).drop m.length) with
        | none =>
          have hiter : splitIter (c :: rest, acc) =
              ((c :: rest).drop m.length, acc ++ [(m, Tag.konsonan)]) := by
            unfold splitIter
            rw [hstep1]
            simp [stepPat, h2]
          have hd1 : ((c :: rest).drop m.length).length ≤ n := by omega
          obtain ⟨l', hl', hjoin, hok⟩ :=
            ih ((c :: rest).drop m.length) (acc ++ [(m, Tag.konsonan)])
              hd1 hlatin_t
          refine ⟨(m, Tag.konsonan) :: l', ?_, ?_, ?_⟩
          · rw [splitLoop_succ, hiter]
            rw [if_pos (show ((c :: rest).drop m.length).length
              < (c :: rest).length by omega)]
            rw [hl']
            simp
          · simp only [List.map_cons, List.flatten_cons]
            rw [hjoin]
            exact hmt
          · intro u hu
            rcases List.mem_cons.mp hu with rfl | hu2
            · exact unitOk_kons hmem
            · exact hok u hu2
        | some m2 =>
          obtain ⟨hmem2, hm2w⟩ := tryPattern_eq_some h2
          have hm2ne : m2 ≠ [] := v_pattern_ne_nil m2 hmem2
          have hm2pos : 0 < m2.length := List.length_pos.mpr hm2ne
          have hm2t : m2 ++ ((c :: rest).drop m.length).drop m2.length
              = (c :: rest).drop m.length := hm2w
          have hlen2 : m2.length +
              (((c :: rest).drop m.length).drop m2.length).length
              = ((c :: rest).drop m.length).length := by
            conv_rhs => rw [← hm2t]
            simp
          have hiter : splitIter (c :: rest, acc) =
              (((c :: rest).drop m.length).drop m2.length,
               acc ++ [(m, Tag.konsonan), (m2, Tag.vocal)]) := by
            unfold splitIter
            rw [hstep1]
            simp [stepPat, h2]
          have hd2 : (((c :: rest).drop m.length).drop m2.length).length
              ≤ n := by omega
          have hlatin_t2 : ∀ x ∈ ((c :: rest).drop m.length).drop m2.length,
              latinChar x = true := by
            intro x hx
            refine hlatin_t x ?_
            rw [← hm2t]
            exact List.mem_append_right m2 hx
          obtain ⟨l', hl', hjoin, hok⟩ :=
            ih (((c :: rest).drop m.length).drop m2.length)
              (acc ++ [(m, Tag.konsonan), (m2, Tag.vocal)])
              hd2 hlatin_t2
          refine ⟨(m, Tag.konsonan) :: (m2, Tag.vocal) :: l', ?_, ?_, ?_⟩
          · rw [splitLoop_succ, hiter]
            rw [if_pos (show (((c :: rest).drop m.length).drop m2.length).length
              < (c :: rest).length by omega)]
            rw [hl']
            simp
          · simp only [List.map_cons, List.flatten_cons]
            rw [hjoin]
            rw [← List.append_assoc]
            rw [List.append_assoc m]
            rw [hm2t]
            exact hmt
          · intro u hu
            rcases List.mem_cons.mp hu with rfl | hu2
            · exact unitOk_kons hmem
            · rcases List.mem_cons.mp hu2 with rfl | hu3
              · exact unitOk_vocal (v_pattern_sub_vocabs m2 hmem2)
              · exact hok u hu3

/-- `split_char` on a string over the covered alphabet: terminates,
partitions the input, classes agree with the tables. -/
lemma split_char_sound (s : List Char) (h : ∀ c ∈ s, latinChar c = true) :
    ∃ l, split_char s = some l ∧
      (l.map Prod.fst).flatten = s ∧ ∀ u ∈ l, unitOk u := by
  obtain ⟨l, h1, h2, h3⟩ := splitLoop_sound s.length s [] (Nat.le_refl _) h
  refine ⟨l, ?_, h2, h3⟩
  rw [split_char, h1]
  simp

lemma grapheme_chars_latin :
    ∀ g ∈ cons ++ vocabs, ∀ c ∈ g, latinChar c = true := by decide

/-- Every character of a grapheme-composed string is covered. -/
lemma composed_latin {s : List Char} (h : ComposedOf s) :
    ∀ c ∈ s, latinChar c = true := by
  induction h with
  | empty => simp
  | step g rest hg _ ih =>
    intro c hc
    rcases List.mem_append.mp hc with h1 | h1
    · exact grapheme_chars_latin g hg c h1
    · exact ih c h1

/-- C5.  For every string composed only of recognized consonant/vowel
graphemes, `split_char` returns a tagged sequence whose substrings
concatenate back to the input exactly, and each substring's class tag
agrees with its membership in the consonant table (`cons`) resp. the vowel
table (`vocabs`). -/
theorem C5_theorem (s : List Char) (h : ComposedOf s) :
    ∃ l, split_char s = some l ∧
      (l.map Prod.fst).flatten = s ∧ ∀ u ∈ l, unitOk u :=
  split_char_sound s (composed_latin h)

/-- Witness for C5 at the concrete input "ngai" = "ng" ++ "ai". -/
theorem C5_witness :
    ∃ l, split_char "ngai".toList = some l ∧
      (l.map Prod.fst).flatten = "ngai".toList ∧ ∀ u ∈ l, unitOk u :=
  C5_theorem "ngai".toList
    (ComposedOf.step ['n', 'g'] "ai".toList (by decide)
      (ComposedOf.step ['a', 'i'] [] (by decide) ComposedOf.empty))

/-- The first unit emitted by a terminating `split_char` run is the match
of the first pattern that anchors at the start: the consonant pattern if
it matches, else the vowel pattern. -/
lemma split_char_head_kons (s m : List Char)
    (hm : tryPattern gab_kons s = some m) :
    ∀ l, split_char s = some l → l.head? = some (m, Tag.konsonan) := by
  intro l hl
  obtain ⟨hmem, hmw⟩ := tryPattern_eq_some hm
  have hmne : m ≠ [] := gab_kons_ne_nil m hmem
  match s with
  | [] =>
    exfalso
    have : m ++ List.drop m.length [] = [] := hmw
    exact hmne (List.append_eq_nil.mp this).1
  | c :: rest =>
    have hsc : split_char (c :: rest) =
        splitLoop (rest.length + 1) (c :: rest) [] := rfl
    rw [hsc, splitLoop_succ] at hl
    have hstep1 : stepPat gab_kons Tag.konsonan (c :: rest, []) =
        ((c :: rest).drop m.length, [(m, Tag.konsonan)]) := by
      simp [stepPat, hm]
    obtain ⟨δ, hδ⟩ := stepPat_acc v_pattern Tag.vocal
      ((c :: rest).drop m.length, [(m, Tag.konsonan)])
    have hiter2 : (splitIter (c :: rest, [])).2 = [(m, Tag.konsonan)] ++ δ := by
      unfold splitIter
      rw [hstep1]
      exact hδ
    by_cases hlt : (splitIter (c :: rest, [])).1.length < (c :: rest).length
    · rw [if_pos hlt] at hl
      obtain ⟨tail, htail⟩ := splitLoop_extends _ _ _ _ hl
      rw [htail, hiter2]
      simp
    · rw [if_neg hlt] at hl
      cases hl

/-- Same, when the consonant pattern fails and the vowel pattern matches. -/
lemma split_char_head_vocal (s m : List Char)
    (hk : tryPattern gab_kons s = none)
    (hm : tryPattern v_pattern s = some m) :
    ∀ l, split_char s = some l → l.head? = some (m, Tag.vocal) := by
  intro l hl
  obtain ⟨hmem, hmw⟩ := tryPattern_eq_some hm
  have hmne : m ≠ [] := v_pattern_ne_nil m hmem
  match s with
  | [] =>
    exfalso
    have : m ++ List.drop m.length [] = [] := hmw
    exact hmne (List.append_eq_nil.mp this).1
  | c :: rest =>
    have hsc : split_char (c :: rest) =
        splitLoop (rest.length + 1) (c :: rest) [] := rfl
    rw [hsc, splitLoop_succ] at hl
    have hiter : splitIter (c :: rest, []) =
        ((c :: rest).drop m.length, [(m, Tag.vocal)]) := by
      unfold splitIter
      simp [stepPat, hk, hm]
    by_cases hlt : (splitIter (c :: rest, [])).1.length < (c :: rest).length
    · rw [if_pos hlt] at hl
      obtain ⟨tail, htail⟩ := splitLoop_extends _ _ _ _ hl
      rw [htail, hiter]
      simp
    · rw [if_neg hlt] at hl
      cases hl

/-- C1 (corrected).  `split_char` consumes patterns in fixed priority
order: at every step the consonant alternation (multi-letter digraphs
before single letters) is tried before the vowel pattern, and the first
anchored match is emitted first.  `split("ng")` therefore yields the
single consonant unit "ng"; but the vowel pattern of `split_char` contains
only single vowels, so `split("ai")` yields the two vowel units "a", "i". -/
theorem C1_theorem :
    (∀ s m, tryPattern gab_kons s = some m →
      ∀ l, split_char s = some l → l.head? = some (m, Tag.konsonan)) ∧
    (∀ s m, tryPattern gab_kons s = none → tryPattern v_pattern s = some m →
      ∀ l, split_char s = some l → l.head? = some (m, Tag.vocal)) ∧
    split_char "ng".toList = some [(['n', 'g'], Tag.konsonan)] ∧
    split_char "ai".toList = some [(['a'], Tag.vocal), (['i'], Tag.vocal)] :=
  ⟨split_char_head_kons, split_char_head_vocal, by decide, by decide⟩

/-- C1 counterexample: on "ai" the code emits the two units "a", "i", not
the single diphthong unit "ai" the claim requires. -/
theorem C1_counterexample :
    split_char "ai".toList = some [(['a'], Tag.vocal), (['i'], Tag.vocal)] ∧
    split_char "ai".toList ≠ some [(['a', 'i'], Tag.vocal)] := by
  constructor
  · decide
  · decide

/-- Witness for C1 at "ng" (consonant branch) and "ai" (vowel branch). -/
theorem C1_witness :
    ([(['n', 'g'], Tag.konsonan)] : List (List Char × Tag)).head?
        = some (['n', 'g'], Tag.konsonan) ∧
    ([(['a'], Tag.vocal), (['i'], Tag.vocal)] : List (List Char × Tag)).head?
        = some (['a'], Tag.vocal) :=
  ⟨C1_theorem.1 "ng".toList ['n', 'g'] (by decide) _ (by decide),
   C1_theorem.2.1 "ai".toList ['a'] (by decide) (by decide) _ (by decide)⟩

/-- C2 (code bug).  On a character outside both tables the `while` loop of
`split_char` makes no progress: one full pass of the inner `for` loop
returns the state unchanged, so the Python loop spins forever instead of
raising a catchable error.  In the embedding that divergence is `none`. -/
theorem C2_theorem :
    split_char "1".toList = none ∧
    ∀ acc, splitIter ("1".toList, acc) = ("1".toList, acc) := by
  constructor
  · decide
  · intro acc
    rfl

/-- What a successful `re.search` over an ordered literal alternation
guarantees: the input splits as before ++ match ++ after, the match is the
anchored winner at its own position, and no position inside `before`
admits any anchored match (leftmost-match semantics). -/
lemma reSearch_sound (pats : List (List Char)) : ∀ (s b m a : List Char),
    reSearch pats s = some (b, m, a) →
    s = b ++ (m ++ a) ∧ tryPattern pats (m ++ a) = some m ∧
      ∀ i, i < b.length → tryPattern pats (s.drop i) = none := by
  intro s
  induction s with
  | nil =>
    intro b m a h
    simp only [reSearch] at h
    cases htry : tryPattern pats [] with
    | none => rw [htry] at h; cases h
    | some m0 =>
      rw [htry] at h
      simp only [Option.some.injEq, Prod.mk.injEq] at h
      obtain ⟨hb, hm, ha⟩ := h
      subst hb; subst hm; subst ha
      obtain ⟨_, hm0⟩ := tryPattern_eq_some htry
      have hm0nil : m0 = [] := by
        have h2 := hm0
        simp at h2
        exact h2
      subst hm0nil
      exact ⟨rfl, htry, fun i hi => absurd hi (by simp)⟩
  | cons c rest ih =>
    intro b m a h
    simp only [reSearch] at h
    cases htry : tryPattern pats (c :: rest) with
    | some m0 =>
      rw [htry] at h
      simp only [Option.some.injEq, Prod.mk.injEq] at h
      obtain ⟨hb, hm, ha⟩ := h
      subst hb; subst hm; subst ha
      obtain ⟨_, hm0⟩ := tryPattern_eq_some htry
      refine ⟨by rw [List.nil_append]; exact hm0.symm, ?_, ?_⟩
      · rw [hm0]
        exact htry
      · intro i hi
        exact absurd hi (by simp)
    | none =>
      rw [htry] at h
      cases hrec : reSearch pats rest with
      | none => rw [hrec] at h; cases h
      | some bma =>
        obtain ⟨b2, m2, a2⟩ := bma
        rw [hrec] at h
        simp only [Option.some.injEq, Prod.mk.injEq] at h
        obtain ⟨hb, hm, ha⟩ := h
        subst hb; subst hm; subst ha
        obtain ⟨hs, htp, hpos⟩ := ih b2 m2 a2 hrec
        refine ⟨by rw [List.cons_append, ← hs], htp, ?_⟩
        intro i hi
        match i with
        | 0 => exact htry
        | Nat.succ j =>
          have hj : j < b2.length := by
            simp only [List.length_cons] at hi
            omega
          rw [List.drop_succ_cons]
          exact hpos j hj

/-- A failed `re.search`: no position of the input admits a match. -/
lemma reSearch_none (pats : List (List Char)) : ∀ (s : List Char),
    reSearch pats s = none → ∀ i, tryPattern pats (s.drop i) = none := by
  intro s
  induction s with
  | nil =>
    intro h i
    simp only [reSearch] at h
    cases htry : tryPattern pats [] with
    | some m => rw [htry] at h; cases h
    | none => rw [List.drop_nil]; exact htry
  | cons c rest ih =>
    intro h i
    simp only [reSearch] at h
    cases htry : tryPattern pats (c :: rest) with
    | some m => rw [htry] at h; cases h
    | none =>
      rw [htry] at h
      cases hrec : reSearch pats rest with
      | some bma =>
        obtain ⟨b2, m2, a2⟩ := bma
        rw [hrec] at h
        cases h
      | none =>
        match i with
        | 0 => exact htry
        | Nat.succ j =>
          rw [List.drop_succ_cons]
          exact ih hrec j

/-- C6.  `decompose` nucleates at the first (leftmost) vowel match: no
position inside the onset admits any vowel-pattern match, and at the
nucleus position the match is the winner of the `re_vocab` alternation
(diphthongs tried before single vowels); a token with no vowel match
anywhere gives `none`.  Concretely, decompose("trak") = (onset "tr",
nucleus "a", coda "k"), decompose("baik") takes the 2-character diphthong
"ai" over "a", and decompose("xyz") = none. -/
theorem C6_theorem :
    (∀ t st, decompose t = some st →
      (∀ i, i < st.onset.length → tryPattern re_vocab (t.drop i) = none) ∧
      tryPattern re_vocab (st.nucleus ++ st.coda) = some st.nucleus) ∧
    (∀ t, decompose t = none → ∀ i, tryPattern re_vocab (t.drop i) = none) ∧
    decompose "trak".toList =
      some ⟨"trak".toList, ['a'], "tr".toList, ['k']⟩ ∧
    decompose "baik".toList =
      some ⟨"baik".toList, "ai".toList, ['b'], ['k']⟩ ∧
    decompose "xyz".toList = none := by
  refine ⟨?_, ?_, by decide, by decide, by decide⟩
  · intro t st h
    unfold decompose at h
    cases hsearch : reSearch re_vocab t with
    | none => rw [hsearch] at h; cases h
    | some bma =>
      obtain ⟨b, m, a⟩ := bma
      rw [hsearch] at h
      simp only [Option.some.injEq] at h
      obtain ⟨hs, htp, hpos⟩ := reSearch_sound re_vocab t b m a hsearch
      subst h
      exact ⟨hpos, htp⟩
  · intro t h i
    unfold decompose at h
    cases hsearch : reSearch re_vocab t with
    | some bma =>
      obtain ⟨b, m, a⟩ := bma
      rw [hsearch] at h
      cases h
    | none => exact reSearch_none re_vocab t hsearch i

/-- Witness for C6 at the concrete token "trak". -/
theorem C6_witness :
    (∀ i, i < ("tr".toList).length →
      tryPattern re_vocab ("trak".toList.drop i) = none) ∧
    tryPattern re_vocab (['a'] ++ ['k']) = some ['a'] :=
  C6_theorem.1 "trak".toList ⟨"trak".toList, ['a'], "tr".toList, ['k']⟩
    (by decide)

/-- C7.  Every token produced by decomposition satisfies the invariant
onset ++ nucleus ++ coda = token, with a non-empty nucleus drawn from the
vowel pattern table (`vocabs` = the `re_vocab` alternatives). -/
theorem C7_theorem (parse : List Char → List (List Char)) (word : List Char)
    (st : SyllableToken) (h : st ∈ (parse_token parse word).tokens) :
    st.onset ++ (st.nucleus ++ st.coda) = st.token ∧
      st.nucleus ≠ [] ∧ st.nucleus ∈ vocabs := by
  unfold parse_token at h
  simp only [List.mem_filterMap] at h
  obtain ⟨t, _, hdec⟩ := h
  unfold decompose at hdec
  cases hsearch : reSearch re_vocab t with
  | none => rw [hsearch] at hdec; cases hdec
  | some bma =>
    obtain ⟨b, m, a⟩ := bma
    rw [hsearch] at hdec
    simp only [Option.some.injEq] at hdec
    obtain ⟨hs, htp, _⟩ := reSearch_sound re_vocab t b m a hsearch
    obtain ⟨hmm, _⟩ := tryPattern_eq_some htp
    subst hdec
    exact ⟨hs.symm, re_vocab_ne_nil m hmm, hmm⟩

/-- Witness for C7 at word "ban" under the identity parser. -/
theorem C7_witness :
    ['b'] ++ (['a'] ++ ['n']) = "ban".toList ∧
      (['a'] : List Char) ≠ [] ∧ (['a'] : List Char) ∈ vocabs :=
  C7_theorem (fun w => [w]) "ban".toList
    ⟨"ban".toList, ['a'], ['b'], ['n']⟩ (by decide)

/-- C3 counterexample.  The corpus is the single word "baa" under the
identity parser; its only token decomposes to onset "b", nucleus "a",
coda "a".  Processing fails (the coda splits to the vowel unit "a", whose
`kons_counters['a']` lookup raises `KeyError`, caught by the `except`),
yet the counters are NOT left at their initial value: the onset increment
for "b" applied before the failure persists, while the nucleus increment
for "a" (which comes after the coda loop) was never applied. -/
theorem C3_counterexample :
    count_syllables [parse_token (fun w => [w]) "baa".toList]
        = some C3_state ∧
    C3_state ≠ ⟨init_vocab, init_kons⟩ ∧
    lookupA C3_state.kons ['b'] = some ⟨1, 0⟩ ∧
    lookupA C3_state.vocab ['a'] = some 0 := by
  refine ⟨by decide, by decide, by decide, by decide⟩

/-- C3 (corrected).  When processing a token raises, the increments
already applied before the failure point persist (no rollback); only the
increments after the failure point are skipped; counts contributed by
other tokens are unaffected.  Demonstrated on the failing token of "baa"
alone from the initial state, and on the corpus ["baa", "ba"], where the
failing first token leaves its partial onset increment for "b" and the
succeeding second token contributes fully (b onset 2, nucleus a count 1). -/
theorem C3_theorem :
    count_token ⟨init_vocab, init_kons⟩
        ⟨"baa".toList, ['a'], ['b'], ['a']⟩ = some C3_state ∧
    count_syllables [parse_token (fun w => [w]) "baa".toList,
        parse_token (fun w => [w]) "ba".toList] = some C3_state2 := by
  refine ⟨by decide, by decide⟩

/-- C8.  The counters start closed-world — exactly the known consonant
letters at {onset 0, coda 0} and the known vowel letters at 0 (shown by
running on the empty corpus) — and on the corpus ["ba", "ban"] under the
identity parser the result is: vowel "a" = 2, consonant "b" onset = 2,
consonant "n" coda = 1, every other tracked letter 0. -/
theorem C8_theorem :
    count_syllables [] =
      some ⟨[(['a', 'i'], 0), (['a', 'u'], 0), (['e', 'i'], 0),
             (['o', 'i'], 0), (['a'], 0), (['i'], 0), (['u'], 0),
             (['e'], 0), (['o'], 0)],
            [(['k', 'h'], ⟨0, 0⟩), (['n', 'g'], ⟨0, 0⟩), (['n', 'y'], ⟨0, 0⟩),
             (['s', 'y'], ⟨0, 0⟩), (['b'], ⟨0, 0⟩), (['c'], ⟨0, 0⟩),
             (['d'], ⟨0, 0⟩), (['f'], ⟨0, 0⟩), (['g'], ⟨0, 0⟩),
             (['h'], ⟨0, 0⟩), (['j'], ⟨0, 0⟩), (['k'], ⟨0, 0⟩),
             (['l'], ⟨0, 0⟩), (['m'], ⟨0, 0⟩), (['n'], ⟨0, 0⟩),
             (['p'], ⟨0, 0⟩), (['q'], ⟨0, 0⟩), (['r'], ⟨0, 0⟩),
             (['s'], ⟨0, 0⟩), (['t'], ⟨0, 0⟩), (['v'], ⟨0, 0⟩),
             (['w'], ⟨0, 0⟩), (['x'], ⟨0, 0⟩), (['y'], ⟨0, 0⟩),
             (['z'], ⟨0, 0⟩)]⟩ ∧
    count_syllables [parse_token (fun w => [w]) "ba".toList,
        parse_token (fun w => [w]) "ban".toList] =
      some ⟨[(['a', 'i'], 0), (['a', 'u'], 0), (['e', 'i'], 0),
             (['o', 'i'], 0), (['a'], 2), (['i'], 0), (['u'], 0),
             (['e'], 0), (['o'], 0)],
            [(['k', 'h'], ⟨0, 0⟩), (['n', 'g'], ⟨0, 0⟩), (['n', 'y'], ⟨0, 0⟩),
             (['s', 'y'], ⟨0, 0⟩), (['b'], ⟨2, 0⟩), (['c'], ⟨0, 0⟩),
             (['d'], ⟨0, 0⟩), (['f'], ⟨0, 0⟩), (['g'], ⟨0, 0⟩),
             (['h'], ⟨0, 0⟩), (['j'], ⟨0, 0⟩), (['k'], ⟨0, 0⟩),
             (['l'], ⟨0, 0⟩), (['m'], ⟨0, 0⟩), (['n'], ⟨0, 1⟩),
             (['p'], ⟨0, 0⟩), (['q'], ⟨0, 0⟩), (['r'], ⟨0, 0⟩),
             (['s'], ⟨0, 0⟩), (['t'], ⟨0, 0⟩), (['v'], ⟨0, 0⟩),
             (['w'], ⟨0, 0⟩), (['x'], ⟨0, 0⟩), (['y'], ⟨0, 0⟩),
             (['z'], ⟨0, 0⟩)]⟩ := by
  refine ⟨by decide, by decide⟩

/-- A letter absent from the source map: `count_in_map` returns silently
with the point unchanged (lines 76-77). -/
lemma point_absent (p : FDPoint) (m : List (List Char × CVal))
    (h : lookupA m p.letter = none) :
    FDPoint.count_in_map p m = some p := by
  unfold FDPoint.count_in_map
  rw [h]

/-- A vowel letter with an int value: the nucleus count is SET (not
accumulated) to the map's value (line 82). -/
lemma point_vocal_int (p : FDPoint) (m : List (List Char × CVal)) (n : Nat)
    (hv : is_vocal p.letter = true)
    (hl : lookupA m p.letter = some (CVal.vint n)) :
    FDPoint.count_in_map p m = some ⟨p.letter, n, p.coda, p.onset⟩ := by
  unfold FDPoint.count_in_map
  rw [hl]
  simp [hv]

/-- A vowel letter with a dict value raises (line 81). -/
lemma point_vocal_dict (p : FDPoint) (m : List (List Char × CVal))
    (o c : Option Nat) (hv : is_vocal p.letter = true)
    (hl : lookupA m p.letter = some (CVal.vdict o c)) :
    FDPoint.count_in_map p m = none := by
  unfold FDPoint.count_in_map
  rw [hl]
  simp [hv]

/-- A consonant letter with an int value raises (line 85). -/
lemma point_kons_int (p : FDPoint) (m : List (List Char × CVal)) (n : Nat)
    (hv : is_vocal p.letter = false)
    (hl : lookupA m p.letter = some (CVal.vint n)) :
    FDPoint.count_in_map p m = none := by
  unfold FDPoint.count_in_map
  rw [hl]
  simp [hv]

/-- A consonant letter with a full dict: both counts are SET (lines 90-91). -/
lemma point_kons_dict (p : FDPoint) (m : List (List Char × CVal))
    (ov cv : Nat) (hv : is_vocal p.letter = false)
    (hl : lookupA m p.letter = some (CVal.vdict (some ov) (some cv))) :
    FDPoint.count_in_map p m = some ⟨p.letter, p.nucleus, cv, ov⟩ := by
  unfold FDPoint.count_in_map
  rw [hl]
  simp [hv]

/-- A consonant letter whose dict is missing the coda key raises (line 87). -/
lemma point_kons_noCoda (p : FDPoint) (m : List (List Char × CVal))
    (o : Option Nat) (hv : is_vocal p.letter = false)
    (hl : lookupA m p.letter = some (CVal.vdict o none)) :
    FDPoint.count_in_map p m = none := by
  unfold FDPoint.count_in_map
  rw [hl]
  simp [hv]

/-- A consonant letter whose dict is missing the onset key raises (line 89). -/
lemma point_kons_noOnset (p : FDPoint) (m : List (List Char × CVal))
    (c : Option Nat) (hv : is_vocal p.letter = false)
    (hl : lookupA m p.letter = some (CVal.vdict none c)) :
    FDPoint.count_in_map p m = none := by
  unfold FDPoint.count_in_map
  rw [hl]
  cases c with
  | none => simp [hv]
  | some cv => simp [hv]

/-- `count_in_map` never changes the letter field. -/
lemma point_letter (p p' : FDPoint) (m : List (List Char × CVal))
    (h : FDPoint.count_in_map p m = some p') : p'.letter = p.letter := by
  unfold FDPoint.count_in_map at h
  cases hl : lookupA m p.letter with
  | none =>
    rw [hl] at h
    simp only [Option.some.injEq] at h
    subst h
    rfl
  | some val =>
    rw [hl] at h
    cases hv : is_vocal p.letter with
    | true =>
      rw [hv] at h
      cases val with
      | vint n =>
        simp at h
        subst h
        rfl
      | vdict o c => simp at h
    | false =>
      rw [hv] at h
      cases val with
      | vint n => simp at h
      | vdict o c =>
        cases c with
        | none => simp at h
        | some cv =>
          cases o with
          | none => simp at h
          | some ov =>
            simp at h
            subst h
            rfl

/-- The per-point update is idempotent: counts are set, not accumulated. -/
lemma point_idem (p p' : FDPoint) (m : List (List Char × CVal))
    (h : FDPoint.count_in_map p m = some p') :
    FDPoint.count_in_map p' m = some p' := by
  unfold FDPoint.count_in_map at h
  cases hl : lookupA m p.letter with
  | none =>
    rw [hl] at h
    simp only [Option.some.injEq] at h
    subst h
    exact point_absent p m hl
  | some val =>
    rw [hl] at h
    cases hv : is_vocal p.letter with
    | true =>
      rw [hv] at h
      cases val with
      | vint n =>
        simp at h
        subst h
        exact point_vocal_int _ m n hv hl
      | vdict o c => simp at h
    | false =>
      rw [hv] at h
      cases val with
      | vint n => simp at h
      | vdict o c =>
        cases c with
        | none => simp at h
        | some cv =>
          cases o with
          | none => simp at h
          | some ov =>
            simp at h
            subst h
            exact point_kons_dict _ m ov cv hv hl

/-- Point-level frame: letter preserved, absent letters untouched. -/
lemma point_frame_fact (p p' : FDPoint) (m : List (List Char × CVal))
    (h : FDPoint.count_in_map p m = some p') :
    p'.letter = p.letter ∧ (lookupA m p.letter = none → p' = p) := by
  refine ⟨point_letter p p' m h, ?_⟩
  intro habs
  have h2 := point_absent p m habs
  rw [h] at h2
  exact Option.some.inj h2

/-- The point loop is idempotent entrywise. -/
lemma mapPointsM_idem : ∀ (ps ps' : List (List Char × FDPoint))
    (m : List (List Char × CVal)), mapPointsM m ps = some ps' →
    mapPointsM m ps' = some ps' := by
  intro ps
  induction ps with
  | nil =>
    intro ps' m h
    simp only [mapPointsM, Option.some.injEq] at h
    subst h
    rfl
  | cons kp rest ih =>
    intro ps' m h
    obtain ⟨k, p⟩ := kp
    simp only [mapPointsM] at h
    cases hp : FDPoint.count_in_map p m with
    | none => rw [hp] at h; cases h
    | some p2 =>
      rw [hp] at h
      cases hrec : mapPointsM m rest with
      | none => rw [hrec] at h; cases h
      | some rest2 =>
        rw [hrec] at h
        simp only [Option.some.injEq] at h
        subst h
        simp only [mapPointsM, point_idem p p2 m hp, ih rest2 m hrec]

/-- The point loop relates input and output entries pairwise by the
frame relation. -/
lemma mapPointsM_frame : ∀ (ps ps' : List (List Char × FDPoint))
    (m : List (List Char × CVal)), mapPointsM m ps = some ps' →
    List.Forall₂ (pointFrame m) ps ps' := by
  intro ps
  induction ps with
  | nil =>
    intro ps' m h
    simp only [mapPointsM, Option.some.injEq] at h
    subst h
    exact List.Forall₂.nil
  | cons kp rest ih =>
    intro ps' m h
    obtain ⟨k, p⟩ := kp
    simp only [mapPointsM] at h
    cases hp : FDPoint.count_in_map p m with
    | none => rw [hp] at h; cases h
    | some p2 =>
      rw [hp] at h
      cases hrec : mapPointsM m rest with
      | none => rw [hrec] at h; cases h
      | some rest2 =>
        rw [hrec] at h
        simp only [Option.some.injEq] at h
        subst h
        refine List.Forall₂.cons ?_ (ih rest2 m hrec)
        obtain ⟨hlet, habs⟩ := point_frame_fact p p2 m hp
        exact ⟨rfl, hlet, fun hnone => by rw [habs hnone]⟩

/-- If every letter of the entries is absent from the map, the loop is the
identity and raises nothing. -/
lemma mapPointsM_absent : ∀ (ps : List (List Char × FDPoint))
    (m : List (List Char × CVal)),
    (∀ kp ∈ ps, lookupA m kp.2.letter = none) →
    mapPointsM m ps = some ps := by
  intro ps
  induction ps with
  | nil => intro m _; rfl
  | cons kp rest ih =>
    intro m h
    obtain ⟨k, p⟩ := kp
    have h1 : lookupA m p.letter = none :=
      h (k, p) (List.mem_cons_self _ _)
    have h2 : ∀ kp ∈ rest, lookupA m kp.2.letter = none :=
      fun kp hkp => h kp (List.mem_cons_of_mem _ hkp)
    simp only [mapPointsM, point_absent p m h1, ih m h2]

lemma fdtype_idem (t t' : FDType) (m : List (List Char × CVal))
    (h : FDType.count_in_map t m = some t') :
    FDType.count_in_map t' m = some t' := by
  unfold FDType.count_in_map at h
  cases hps : mapPointsM m t.points with
  | none => rw [hps] at h; cases h
  | some ps =>
    rw [hps] at h
    simp only [Option.some.injEq] at h
    subst h
    unfold FDType.count_in_map
    rw [mapPointsM_idem t.points ps m hps]

lemma fdtype_frame (t t' : FDType) (m : List (List Char × CVal))
    (h : FDType.count_in_map t m = some t') :
    t'.ftype = t.ftype ∧ List.Forall₂ (pointFrame m) t.points t'.points := by
  unfold FDType.count_in_map at h
  cases hps : mapPointsM m t.points with
  | none => rw [hps] at h; cases h
  | some ps =>
    rw [hps] at h
    simp only [Option.some.injEq] at h
    subst h
    exact ⟨rfl, mapPointsM_frame t.points ps m hps⟩

lemma fdtype_absent (t : FDType) (m : List (List Char × CVal))
    (h : ∀ kp ∈ t.points, lookupA m kp.2.letter = none) :
    FDType.count_in_map t m = some t := by
  unfold FDType.count_in_map
  rw [mapPointsM_absent t.points m h]

lemma fd_idem (fd fd' : FD) (m : List (List Char × CVal))
    (h : FD.count_in_map fd m = some fd') :
    FD.count_in_map fd' m = some fd' := by
  unfold FD.count_in_map at h
  cases hp : FDType.count_in_map fd.plus m with
  | none => rw [hp] at h; cases h
  | some tp =>
    rw [hp] at h
    cases hm : FDType.count_in_map fd.minus m with
    | none => rw [hm] at h; cases h
    | some tm =>
      rw [hm] at h
      simp only [Option.some.injEq] at h
      subst h
      unfold FD.count_in_map
      rw [fdtype_idem fd.plus tp m hp, fdtype_idem fd.minus tm m hm]

lemma count_all_idem : ∀ (fds fds' : List FD) (m : List (List Char × CVal)),
    count_all m fds = some fds' → count_all m fds' = some fds' := by
  intro fds
  induction fds with
  | nil =>
    intro fds' m h
    simp only [count_all, Option.some.injEq] at h
    subst h
    rfl
  | cons fd rest ih =>
    intro fds' m h
    simp only [count_all] at h
    cases hfd : FD.count_in_map fd m with
    | none => rw [hfd] at h; cases h
    | some fd2 =>
      rw [hfd] at h
      cases hrec : count_all m rest with
      | none => rw [hrec] at h; cases h
      | some rest2 =>
        rw [hrec] at h
        simp only [Option.some.injEq] at h
        subst h
        simp only [count_all, fd_idem fd fd2 m hfd, ih rest2 m hrec]

/-- C9.  Loading a feature spec and applying the counts is idempotent:
if applying the counter map once to the loaded features succeeds and
yields `fds1`, applying it a second time to `fds1` yields exactly `fds1`
again (counts are set, not accumulated), hence identical output
documents. -/
theorem C9_theorem (fiturs : List (List Char))
    (lines : List (List Char × List (List Char)))
    (m : List (List Char × CVal)) (fds1 : List FD)
    (h : count_all m (load_fitures_spec fiturs lines) = some fds1) :
    count_all m fds1 = some fds1 :=
  count_all_idem (load_fitures_spec fiturs lines) fds1 m h

/-- Witness for C9: one feature "nasal", one spec line "n +", applied to
the consonant counter map. -/
theorem C9_witness :
    count_all (konsAsCVal init_kons)
      [⟨"nasal".toList,
        ⟨"plus".toList, [(['n'], ⟨['n'], 0, 0, 0⟩)]⟩,
        ⟨"minus".toList, []⟩⟩]
    = some
      [⟨"nasal".toList,
        ⟨"plus".toList, [(['n'], ⟨['n'], 0, 0, 0⟩)]⟩,
        ⟨"minus".toList, []⟩⟩] :=
  C9_theorem ["nasal".toList] [(['n'], [['+']])] (konsAsCVal init_kons) _
    (by decide)

/-- C10.  `count_in_map` on a feature only touches the numeric counts of
points whose letter is present in the source map: the feature name, the
polarity labels, the keys of the point entries (set and order, via the
pairwise `Forall₂`), and each point's letter are unchanged; a point whose
letter is absent from the map is left entirely unchanged; and if every
letter is absent the whole call returns the feature unchanged with no
error. -/
theorem C10_theorem (fd : FD) (m : List (List Char × CVal)) :
    (∀ fd', FD.count_in_map fd m = some fd' →
      fd'.name = fd.name ∧
      fd'.plus.ftype = fd.plus.ftype ∧ fd'.minus.ftype = fd.minus.ftype ∧
      List.Forall₂ (pointFrame m) fd.plus.points fd'.plus.points ∧
      List.Forall₂ (pointFrame m) fd.minus.points fd'.minus.points) ∧
    ((∀ kp ∈ fd.plus.points, lookupA m kp.2.letter = none) →
     (∀ kp ∈ fd.minus.points, lookupA m kp.2.letter = none) →
     FD.count_in_map fd m = some fd) := by
  constructor
  · intro fd' h
    unfold FD.count_in_map at h
    cases hp : FDType.count_in_map fd.plus m with
    | none => rw [hp] at h; cases h
    | some tp =>
      rw [hp] at h
      cases hm : FDType.count_in_map fd.minus m with
      | none => rw [hm] at h; cases h
      | some tm =>
        rw [hm] at h
        simp only [Option.some.injEq] at h
        subst h
        obtain ⟨hpf, hpp⟩ := fdtype_frame fd.plus tp m hp
        obtain ⟨hmf, hmp⟩ := fdtype_frame fd.minus tm m hm
        exact ⟨rfl, hpf, hmf, hpp, hmp⟩
  · intro h1 h2
    unfold FD.count_in_map
    rw [fdtype_absent fd.plus m h1, fdtype_absent fd.minus m h2]

/-- Witness for C10: a consonant feature applied to the vowel counter map
(all letters absent) is returned unchanged without error. -/
theorem C10_witness :
    FD.count_in_map
      ⟨"voice".toList,
       ⟨"plus".toList, [(['b'], ⟨['b'], 0, 0, 0⟩)]⟩,
       ⟨"minus".toList, [(['p'], ⟨['p'], 0, 0, 0⟩)]⟩⟩
      (vocabAsCVal init_vocab)
    = some
      ⟨"voice".toList,
       ⟨"plus".toList, [(['b'], ⟨['b'], 0, 0, 0⟩)]⟩,
       ⟨"minus".toList, [(['p'], ⟨['p'], 0, 0, 0⟩)]⟩⟩ :=
  ( C10_theorem
    ⟨"voice".toList,
     ⟨"plus".toList, [(['b'], ⟨['b'], 0, 0, 0⟩)]⟩,
     ⟨"minus".toList, [(['p'], ⟨['p'], 0, 0, 0⟩)]⟩⟩
    (vocabAsCVal init_vocab)).2 (by decide) (by decide)

/-- C4 counterexample: the vowel feature `C4_fd` (its only letter is the
vowel "a") applied against the consonant-shaped counter map returns
normally with every number unchanged — no error is raised, because "a" is
simply absent from the consonant map's keys. -/
theorem C4_counterexample :
    FD.count_in_map C4_fd (konsAsCVal init_kons) = some C4_fd ∧
    FD.count_in_map C4_fd (konsAsCVal init_kons) ≠ none := by
  refine ⟨by decide, by decide⟩

/-- C4 (corrected).  `count_in_map` fails fast exactly for a point whose
letter IS present in the map with a wrongly shaped value: a vowel letter
with a dict value, a consonant letter with an int value, or a consonant
letter with a dict missing the onset or the coda key.  A point whose
letter is absent from the map is silently left unchanged, so a feature
applied against the other class's standard count map (whose keys are
disjoint from the feature's letters) returns with counts untouched and no
error. -/
theorem C4_theorem (p : FDPoint) (m : List (List Char × CVal)) :
    (lookupA m p.letter = none → FDPoint.count_in_map p m = some p) ∧
    (∀ o c, is_vocal p.letter = true →
      lookupA m p.letter = some (CVal.vdict o c) →
      FDPoint.count_in_map p m = none) ∧
    (∀ n, is_vocal p.letter = false →
      lookupA m p.letter = some (CVal.vint n) →
      FDPoint.count_in_map p m = none) ∧
    (∀ o, is_vocal p.letter = false →
      lookupA m p.letter = some (CVal.vdict o none) →
      FDPoint.count_in_map p m = none) ∧
    (∀ c, is_vocal p.letter = false →
      lookupA m p.letter = some (CVal.vdict none c) →
      FDPoint.count_in_map p m = none) :=
  ⟨fun h => point_absent p m h,
   fun o c hv hl => point_vocal_dict p m o c hv hl,
   fun n hv hl => point_kons_int p m n hv hl,
   fun o hv hl => point_kons_noCoda p m o hv hl,
   fun c hv hl => point_kons_noOnset p m c hv hl⟩

/-- Witness for C4: an absent letter returns unchanged; a present vowel
letter with a dict value raises. -/
theorem C4_witness :
    FDPoint.count_in_map ⟨['z'], 0, 0, 0⟩ [] = some ⟨['z'], 0, 0, 0⟩ ∧
    FDPoint.count_in_map ⟨['a'], 0, 0, 0⟩
      [(['a'], CVal.vdict (some 1) (some 2))] = none :=
  ⟨( C4_theorem ⟨['z'], 0, 0, 0⟩ []).1 (by decide),
   ( C4_theorem ⟨['a'], 0, 0, 0⟩
      [(['a'], CVal.vdict (some 1) (some 2))]).2.1
     (some 1) (some 2) (by decide) (by decide)⟩

end Fono
